import Mathlib

/-!
PeeMeter — verification of the log-entry core

Shallow embedding of the behavioral core of the PeeMeter app: the log-entry
data model, the append / clear / export operations, the persistence hook
(`useLocalStorage`), and the derived views (day grouping in `LogList`,
period-binned chart in `LogChart`, drill-down in `handleBarClick`).

Conventions of the embedding:
* Timestamps are `Int`, milliseconds since the Unix epoch (`Date.now()`).
* The current time `now` and the local-timezone offset `tz` (milliseconds
  east of UTC, fixed offset) are explicit parameters; `Date.now()` inside a
  single synchronous handler is read once as `now`.
* Locale date formatting (`Intl.DateTimeFormat`) is external to the
  repository; where only the induced calendar-day key matters it is modelled
  by the local calendar-day index, and where the formatted text itself
  appears (clipboard export) the formatter is an abstract `Int → String`
  parameter.
* `JSON.parse` / `JSON.stringify` and the `localStorage` backend are browser
  collaborators, modelled as abstract parameters / explicit failure cases;
  a thrown exception that the source catches becomes an explicit branch.
* `Array.prototype.sort(cmp)` (with a consistent comparator) is modelled by
  `List.insertionSort` with the corresponding relation: a sorted permutation
  of the input, which is the observable contract the views rely on.
-/

namespace PeeMeter

open List

/-- The `LogEntry` record from `types.ts`: `id` and `timestamp` are both
millisecond timestamps (`Date.now()` at creation). -/
structure LogEntry where
  id : Int
  timestamp : Int
deriving DecidableEq, Repr

/-- The `oneDay` constant of `LogChart`: milliseconds per day. -/
def oneDay : Int := 1000 * 60 * 60 * 24

/-- `handleLogUrination`: `setLog(prevLog => [{ id: Date.now(), timestamp: Date.now() }, ...prevLog])`.
The new entry, with `id` and `timestamp` both the current time, is prepended
to the previous log. -/
def handleLogUrination (now : Int) (prevLog : List LogEntry) : List LogEntry :=
  { id := now, timestamp := now } :: prevLog

/-- N successive `handleLogUrination` calls, with `times` the successive
values read from the clock, oldest call first. -/
def appendTimes (times : List Int) (log : List LogEntry) : List LogEntry :=
  times.foldl (fun l t => handleLogUrination t l) log

theorem appendTimes_length (times : List Int) (log : List LogEntry) :
    (appendTimes times log).length = times.length + log.length := by
  induction times generalizing log with
  | nil => simp [appendTimes]
  | cons t ts ih =>
    simp only [appendTimes, List.foldl_cons] at *
    rw [ih]
    simp [handleLogUrination]
    omega

theorem appendTimes_mem (times : List Int) (log : List LogEntry)
    (h : ∀ e ∈ log, e.id = e.timestamp) :
    ∀ e ∈ appendTimes times log, e.id = e.timestamp := by
  induction times generalizing log with
  | nil => simpa [appendTimes] using h
  | cons t ts ih =>
    simp only [appendTimes, List.foldl_cons]
    refine ih _ ?_
    intro e he
    rcases List.mem_cons.mp he with h1 | h2
    · subst h1; rfl
    · exact h e h2

/-- C1: one `append()` call creates a single entry with `id = timestamp = now()`
and prepends it; after N calls from the empty collection the log has length N
and every entry satisfies `id = timestamp`. -/
theorem append_id_eq_timestamp :
    (∀ (now : Int) (log : List LogEntry),
      handleLogUrination now log = { id := now, timestamp := now } :: log) ∧
    (∀ times : List Int,
      (appendTimes times []).length = times.length ∧
      ∀ e ∈ appendTimes times [], e.id = e.timestamp) := by
  refine ⟨fun now log => rfl, fun times => ⟨?_, ?_⟩⟩
  · simp [appendTimes_length]
  · exact appendTimes_mem times [] (by intro e he; cases he)

/-- Witness for C1 at the concrete clock readings 5 then 9. -/
theorem append_id_eq_timestamp_witness :
    (appendTimes [5, 9] []).length = 2 ∧
    LogEntry.id { id := 9, timestamp := 9 } =
      LogEntry.timestamp { id := 9, timestamp := 9 } := by
  refine ⟨(append_id_eq_timestamp.2 [5, 9]).1, ?_⟩
  exact (append_id_eq_timestamp.2 [5, 9]).2 { id := 9, timestamp := 9 } (by decide)

/-- C10: `append()` is a pure prepend — every pre-existing entry is unchanged
field-for-field and keeps its relative position (the tail of the new log is
the old log, and position `i` of the old log is position `i+1` of the new). -/
theorem append_frame (now : Int) (log : List LogEntry) :
    (handleLogUrination now log).tail = log ∧
    handleLogUrination now log = { id := now, timestamp := now } :: log ∧
    ∀ i : Nat, (handleLogUrination now log)[i + 1]? = log[i]? := by
  refine ⟨rfl, rfl, fun i => ?_⟩
  simp [handleLogUrination]

/-- The `ChartPeriod` type of `App.tsx`: week, month or all. -/
inductive ChartPeriod where
  | week
  | month
  | all
deriving DecidableEq, Repr

/-- The `filteredEntries` computation of `LogChart`: keep an entry when
`(now - entry.timestamp) / oneDay < 7` (resp. `< 30`); for the all period
keep everything. Over the integer inputs the real-division test
`(now - ts) / oneDay < 7` is exactly `now - ts < 7 * oneDay`. -/
def periodFilter (period : ChartPeriod) (now : Int) (entries : List LogEntry) :
    List LogEntry :=
  entries.filter fun e =>
    match period with
    | .week => decide (now - e.timestamp < 7 * oneDay)
    | .month => decide (now - e.timestamp < 30 * oneDay)
    | .all => true

/-- C4: the period filter keeps exactly the entries less than 7×24h
(resp. 30×24h) old for `week` (resp. `month`), keeps everything for `all`,
and on entries at now−1d, now−6d, now−10d the `week` filter keeps exactly
the first two. -/
theorem periodFilter_window :
    (∀ (now : Int) (entries : List LogEntry) (e : LogEntry),
      (e ∈ periodFilter .week now entries ↔
        e ∈ entries ∧ now - e.timestamp < 7 * oneDay) ∧
      (e ∈ periodFilter .month now entries ↔
        e ∈ entries ∧ now - e.timestamp < 30 * oneDay)) ∧
    (∀ (now : Int) (entries : List LogEntry),
      periodFilter .all now entries = entries) ∧
    (∀ (now a b c : Int),
      periodFilter .week now
          [{ id := a, timestamp := now - oneDay },
           { id := b, timestamp := now - 6 * oneDay },
           { id := c, timestamp := now - 10 * oneDay }] =
        [{ id := a, timestamp := now - oneDay },
         { id := b, timestamp := now - 6 * oneDay }]) := by
  refine ⟨fun now entries e => ⟨?_, ?_⟩, fun now entries => ?_, fun now a b c => ?_⟩
  · simp [periodFilter, List.mem_filter]
  · simp [periodFilter, List.mem_filter]
  · simp [periodFilter]
  · simp only [periodFilter, List.filter, oneDay]
    norm_num

/-- Local midnight of the calendar day containing `ts`, for a fixed
timezone offset `tz` (ms east of UTC): the embedding of
`const date = new Date(entry.timestamp); date.setHours(0, 0, 0, 0)`.
The milliseconds elapsed since local midnight are `(ts + tz).emod oneDay`. -/
def localMidnight (tz ts : Int) : Int := ts - (ts + tz).emod oneDay

/-- The day key, the date part of `date.toISOString()` computed on the
midnight-normalized date: the `YYYY-MM-DD` string names the UTC calendar day
of the midnight instant, embedded as the day index since the epoch (the
string form is injective on days, so string equality is index equality). -/
def isoDayKey (tz ts : Int) : Int := (localMidnight tz ts).fdiv oneDay

/-- `handleBarClick`: `log.filter(entry => midnightIso(entry) === dateString)`
— the drill-down behind a chart bar. -/
def handleBarClick (tz : Int) (log : List LogEntry) (dateKey : Int) :
    List LogEntry :=
  log.filter fun e => decide (isoDayKey tz e.timestamp = dateKey)

/-- C5: the drill-down for a day key is exactly the subsequence of the log
whose midnight-normalized date equals that key: membership is
characterized by the key test, and the result is a sublist (order
preserved, nothing else interleaved). -/
theorem barClick_exact_day :
    ∀ (tz : Int) (log : List LogEntry) (dateKey : Int),
      (∀ e, e ∈ handleBarClick tz log dateKey ↔
        e ∈ log ∧ isoDayKey tz e.timestamp = dateKey) ∧
      (handleBarClick tz log dateKey).Sublist log := by
  intro tz log dateKey
  refine ⟨fun e => ?_, List.filter_sublist log⟩
  simp [handleBarClick, List.mem_filter]

/-- Outcome of `handleCopyToClipboard`: either the informational
"No hay nada que copiar." toast with no clipboard write (an early return,
not an error), or a clipboard write of the assembled text. -/
inductive CopyAction where
  | nothingToCopy
  | copyText (text : String)
deriving DecidableEq, Repr

/-- One export line: the full locale date, a dash, then the locale time
(the dateStyle full and timeStyle medium formats); the two locale
formatters are abstract parameters (they live in `Intl`, not in the repo). -/
def formatLine (fmtDate fmtTime : Int → String) (e : LogEntry) : String :=
  fmtDate e.timestamp ++ " - " ++ fmtTime e.timestamp

/-- `handleCopyToClipboard`: on an empty log, toast "No hay nada que copiar."
and return; otherwise map each entry (in current order) to its line and join
with newlines. -/
def handleCopyToClipboard (fmtDate fmtTime : Int → String)
    (log : List LogEntry) : CopyAction :=
  if log.length = 0 then .nothingToCopy
  else .copyText (String.intercalate "\n" (log.map (formatLine fmtDate fmtTime)))

/-- C7: export on an empty collection is the informational no-op; on a
non-empty collection it is one line per entry, in the current sequence
order, joined by newlines; two entries with timestamps T1 > T2 give the
two-line string with the line of T1 first. -/
theorem export_lines :
    (∀ fmtDate fmtTime, handleCopyToClipboard fmtDate fmtTime [] =
      CopyAction.nothingToCopy) ∧
    (∀ fmtDate fmtTime (log : List LogEntry), log ≠ [] →
      handleCopyToClipboard fmtDate fmtTime log =
        CopyAction.copyText
          (String.intercalate "\n" (log.map (formatLine fmtDate fmtTime))) ∧
      (log.map (formatLine fmtDate fmtTime)).length = log.length) ∧
    (∀ fmtDate fmtTime (e1 e2 : LogEntry), e1.timestamp > e2.timestamp →
      handleCopyToClipboard fmtDate fmtTime [e1, e2] =
        CopyAction.copyText
          (formatLine fmtDate fmtTime e1 ++ "\n" ++
            formatLine fmtDate fmtTime e2)) := by
  refine ⟨fun fd ft => rfl, fun fd ft log hne => ⟨?_, by simp⟩, fun fd ft e1 e2 h => ?_⟩
  · have : log.length ≠ 0 := by simpa using hne
    simp [handleCopyToClipboard, this]
  · simp [handleCopyToClipboard, String.intercalate, String.intercalate.go,
      formatLine, String.append_assoc]

/-- Witness for C7 at two concrete entries with timestamps 9 > 3 and the
formatters rendering the raw millisecond value. -/
theorem export_lines_witness :
    handleCopyToClipboard (fun t => toString t) (fun t => toString t)
        [{ id := 9, timestamp := 9 }, { id := 3, timestamp := 3 }] =
      CopyAction.copyText "9 - 9\n3 - 3" := by
  have h := export_lines.2.2 (fun t => toString t) (fun t => toString t)
    { id := 9, timestamp := 9 } { id := 3, timestamp := 3 } (by decide)
  simpa [formatLine] using h

/-- A read of `window.localStorage.getItem(key)` as observed by the
`useLocalStorage` initializer: no `window` at all (non-browser context), a
thrown backend error (the `catch` branch), an absent key (`null`), or a
stored string. -/
inductive StorageRead where
  | noWindow
  | getError
  | absent
  | stored (s : String)
deriving DecidableEq, Repr

/-- The `useLocalStorage` initializer (its `load` behavior):
returns `initialValue` when `window` is undefined; otherwise
`item ? JSON.parse(item) : initialValue` inside a `try`, with the `catch`
returning `initialValue`. `JSON.parse` is the abstract `parse` parameter;
`parse s = none` models a thrown parse error. The empty string is falsy in
JS, so a stored `""` also yields `initialValue`. -/
def load (parse : String → Option (List LogEntry)) (initialValue : List LogEntry) :
    StorageRead → List LogEntry
  | .noWindow => initialValue
  | .getError => initialValue
  | .absent => initialValue
  | .stored s => if s = "" then initialValue else (parse s).getD initialValue

/-- The argument of `setValue`: a plain value or an updater function
(`value instanceof Function ? value(storedValue) : value`). -/
inductive SetLogArg where
  | val (v : List LogEntry)
  | fn (f : List LogEntry → List LogEntry)

/-- Resolution of a `setValue` argument against the current stored value. -/
def resolveArg : SetLogArg → List LogEntry → List LogEntry
  | .val v, _ => v
  | .fn f, cur => f cur

/-- The persistent-store state: the in-memory React state (`storedValue`)
and the `localStorage` slot for the key, `none` when absent. -/
structure StoreState where
  memory : List LogEntry
  slot : Option String
deriving Repr

/-- The `setValue` function of `useLocalStorage`: resolve the argument,
update the in-memory state, then — when a `window` exists — write
`JSON.stringify(valueToStore)` to the slot; a thrown `setItem` failure
(`writeOk = false`) is caught after the in-memory update already happened,
so the memory is updated on every path and the slot only on a successful
browser write. -/
def setValue (serialize : List LogEntry → String) (hasWindow writeOk : Bool)
    (st : StoreState) (arg : SetLogArg) : StoreState :=
  let v := resolveArg arg st.memory
  if hasWindow then
    if writeOk then { memory := v, slot := some (serialize v) }
    else { memory := v, slot := st.slot }
  else { memory := v, slot := st.slot }

/-- C6: the persistent store never propagates an error: `load` returns the
initial value on a missing window, a backend read error, an absent key, or
a malformed stored value, and the parsed collection on a good one; and
`setValue` always leaves the in-memory state updated, with a failed write
swallowed and the slot untouched. -/
theorem storage_never_fails :
    (∀ parse initialValue,
      load parse initialValue .noWindow = initialValue ∧
      load parse initialValue .getError = initialValue ∧
      load parse initialValue .absent = initialValue) ∧
    (∀ parse initialValue s, parse s = none →
      load parse initialValue (.stored s) = initialValue) ∧
    (∀ parse initialValue s l, s ≠ "" → parse s = some l →
      load parse initialValue (.stored s) = l) ∧
    (∀ serialize hasWindow writeOk st arg,
      (setValue serialize hasWindow writeOk st arg).memory =
        resolveArg arg st.memory) ∧
    (∀ serialize st arg,
      (setValue serialize true false st arg).slot = st.slot) := by
  refine ⟨fun parse init => ⟨rfl, rfl, rfl⟩,
    fun parse init s hnone => ?_,
    fun parse init s l hne hsome => ?_,
    fun serialize hw wo st arg => ?_,
    fun serialize st arg => rfl⟩
  · simp [load, hnone]
  · simp [load, hne, hsome]
  · cases hw <;> cases wo <;> simp [setValue]

/-- Witness for C6: a malformed stored value falls back to the initial
collection, and a failed write still updates the in-memory state. -/
theorem storage_never_fails_witness :
    load (fun _ => none) [] (.stored "oops") = [] ∧
    (setValue (fun _ => "x") true false
        { memory := [], slot := none }
        (.val [{ id := 1, timestamp := 1 }])).memory =
      resolveArg (.val [{ id := 1, timestamp := 1 }]) [] := by
  refine ⟨storage_never_fails.2.1 (fun _ => none) [] "oops" rfl, ?_⟩
  exact storage_never_fails.2.2.2.1 (fun _ => "x") true false
    { memory := [], slot := none } (.val [{ id := 1, timestamp := 1 }])

/-- `handleClearLog`: behind the `window.confirm` gate, `setLog([])` — the
empty collection is stored in memory and persisted through `setValue`. -/
def handleClearLog (serialize : List LogEntry → String)
    (hasWindow writeOk confirmed : Bool) (st : StoreState) : StoreState :=
  if confirmed then setValue serialize hasWindow writeOk st (.val []) else st

/-- C8: a confirmed `clear()` (with the browser storage available and the
write succeeding) empties the in-memory collection, writes the serialized
empty sequence to the store, and a subsequent `load` of that slot
round-trips as the empty sequence. -/
theorem clear_roundtrip (serialize : List LogEntry → String)
    (parse : String → Option (List LogEntry)) (st : StoreState)
    (hrt : parse (serialize []) = some []) :
    (handleClearLog serialize true true true st).memory = [] ∧
    (handleClearLog serialize true true true st).slot = some (serialize []) ∧
    ∀ s, (handleClearLog serialize true true true st).slot = some s →
      load parse [] (.stored s) = [] := by
  refine ⟨rfl, rfl, fun s hs => ?_⟩
  have hse : s = serialize [] := by
    simpa [handleClearLog, setValue] using hs.symm
  subst hse
  by_cases h0 : serialize [] = ""
  · simp [load, h0]
  · simp [load, h0, hrt]

/-- Witness for C8 with a concrete serializer and parser forming a JSON-like
round-trip on the empty collection. -/
theorem clear_roundtrip_witness :
    (handleClearLog (fun _ => "[]") true true true
        { memory := [{ id := 4, timestamp := 4 }], slot := none }).memory = [] ∧
    load (fun s => if s = "[]" then some [] else none) [] (.stored "[]") = [] := by
  have h := clear_roundtrip (fun _ => "[]")
    (fun s => if s = "[]" then some [] else none)
    { memory := [{ id := 4, timestamp := 4 }], slot := none } (by simp)
  exact ⟨h.1, h.2.2 "[]" h.2.1⟩

/-- The calendar day of `ts` in the fixed-offset local timezone `tz`, as a
day index since the epoch: the embedding of the `LogList` group key
`formatTimestamp(ts, { year, month, day, weekday })`, a locale string that is
injective on local calendar days. -/
def localDayIndex (tz ts : Int) : Int := (ts + tz).fdiv oneDay

/-- One step of the `LogList` grouping reduce: push the entry onto the bucket
whose key matches, or open a new bucket at the end (JS object string keys
keep insertion order). -/
def pushEntry (key : Int) (e : LogEntry) :
    List (Int × List LogEntry) → List (Int × List LogEntry)
  | [] => [(key, [e])]
  | (k, es) :: rest =>
    if k = key then (k, es ++ [e]) :: rest else (k, es) :: pushEntry key e rest

/-- `groupedEntries`: the `entries.reduce(...)` of `LogList`, bucketing
entries by their day key in encounter order. -/
def groupedEntries (dayKey : Int → Int) (entries : List LogEntry) :
    List (Int × List LogEntry) :=
  entries.foldl (fun acc e => pushEntry (dayKey e.timestamp) e acc) []

/-- The timestamp of `bucket[0]`, the first entry pushed into a bucket
(buckets are never empty; the default is never reached). -/
def firstTimestamp : List LogEntry → Int
  | [] => 0
  | e :: _ => e.timestamp

/-- The `sortedDates` comparator `(a, b) => dateB - dateA`: bucket `a` comes
before bucket `b` when the timestamp of the first entry of `a` is at least
that of the first entry of `b` (descending). -/
def bucketOrder (a b : Int × List LogEntry) : Prop :=
  firstTimestamp b.2 ≤ firstTimestamp a.2

instance : DecidableRel bucketOrder := fun a b =>
  inferInstanceAs (Decidable (firstTimestamp b.2 ≤ firstTimestamp a.2))

instance : IsTotal (Int × List LogEntry) bucketOrder :=
  ⟨fun a b => le_total (firstTimestamp b.2) (firstTimestamp a.2)⟩

instance : IsTrans (Int × List LogEntry) bucketOrder :=
  ⟨fun _ _ _ h1 h2 => le_trans h2 h1⟩

/-- `sortedDates`: the day buckets in the order `LogList` renders them,
sorted by the timestamp of the first entry of each bucket, descending
(`Array.prototype.sort` modelled as a sorted permutation). -/
def sortedBuckets (tz : Int) (entries : List LogEntry) :
    List (Int × List LogEntry) :=
  (groupedEntries (localDayIndex tz) entries).insertionSort bucketOrder

/-- The `LogList` inner sort `(a, b) => b.timestamp - a.timestamp`:
timestamp descending. -/
def entryOrder (a b : LogEntry) : Prop := b.timestamp ≤ a.timestamp

instance : DecidableRel entryOrder := fun a b =>
  inferInstanceAs (Decidable (b.timestamp ≤ a.timestamp))

/-- The day buckets exactly as `LogList` displays them: bucket order from
`sortedDates`, entries within each bucket sorted timestamp-descending. -/
def logListBuckets (tz : Int) (entries : List LogEntry) :
    List (Int × List LogEntry) :=
  (sortedBuckets tz entries).map fun b => (b.1, b.2.insertionSort entryOrder)

theorem pushEntry_keys (key : Int) (e : LogEntry)
    (bs : List (Int × List LogEntry)) :
    (pushEntry key e bs).map Prod.fst =
      if key ∈ bs.map Prod.fst then bs.map Prod.fst
      else bs.map Prod.fst ++ [key] := by
  induction bs with
  | nil => simp [pushEntry]
  | cons b rest ih =>
    obtain ⟨k, es⟩ := b
    by_cases hk : k = key
    · subst hk
      simp [pushEntry]
    · by_cases hmem : key ∈ rest.map Prod.fst <;>
        simp [pushEntry, hk, hmem, ih, Ne.symm hk]

theorem pushEntry_keys_nodup (key : Int) (e : LogEntry)
    (bs : List (Int × List LogEntry)) (h : (bs.map Prod.fst).Nodup) :
    ((pushEntry key e bs).map Prod.fst).Nodup := by
  rw [pushEntry_keys]
  by_cases hmem : key ∈ bs.map Prod.fst
  · simpa [hmem] using h
  · simp only [hmem, if_false]
    refine List.Nodup.append h (List.nodup_singleton key) ?_
    intro a ha hb
    rw [List.mem_singleton] at hb
    subst hb
    exact hmem ha

theorem pushEntry_content (dayKey : Int → Int) (key : Int) (e : LogEntry)
    (hkey : dayKey e.timestamp = key)
    (bs : List (Int × List LogEntry))
    (h : ∀ b ∈ bs, ∀ x ∈ b.2, dayKey x.timestamp = b.1) :
    ∀ b ∈ pushEntry key e bs, ∀ x ∈ b.2, dayKey x.timestamp = b.1 := by
  induction bs with
  | nil =>
    intro b hb x hx
    simp only [pushEntry, List.mem_singleton] at hb
    subst hb
    simp only [List.mem_singleton] at hx
    subst hx
    exact hkey
  | cons b0 rest ih =>
    obtain ⟨k, es⟩ := b0
    intro b hb x hx
    by_cases hk : k = key
    · simp only [pushEntry, if_pos hk] at hb
      rcases List.mem_cons.mp hb with hb1 | hb2
      · subst hb1
        rcases List.mem_append.mp hx with hx1 | hx2
        · exact h (k, es) (List.mem_cons_self _ _) x hx1
        · rw [List.mem_singleton] at hx2
          subst hx2
          exact hkey.trans hk.symm
      · exact h b (List.mem_cons_of_mem _ hb2) x hx
    · simp only [pushEntry, if_neg hk] at hb
      rcases List.mem_cons.mp hb with hb1 | hb2
      · subst hb1
        exact h (k, es) (List.mem_cons_self _ _) x hx
      · exact ih (fun b hb => h b (List.mem_cons_of_mem _ hb)) b hb2 x hx

theorem pushEntry_flatten (key : Int) (e : LogEntry)
    (bs : List (Int × List LogEntry)) :
    ((pushEntry key e bs).map Prod.snd).flatten ~
      (bs.map Prod.snd).flatten ++ [e] := by
  induction bs with
  | nil => simp [pushEntry]
  | cons b0 rest ih =>
    obtain ⟨k, es⟩ := b0
    by_cases hk : k = key
    · simp only [pushEntry, hk, if_pos rfl, List.map_cons, List.flatten_cons]
      calc (es ++ [e]) ++ (rest.map Prod.snd).flatten
          = es ++ ([e] ++ (rest.map Prod.snd).flatten) := by
            simp [List.append_assoc]
        _ ~ es ++ ((rest.map Prod.snd).flatten ++ [e]) :=
            List.Perm.append_left es (List.perm_append_comm)
        _ = (es ++ (rest.map Prod.snd).flatten) ++ [e] := by
            simp [List.append_assoc]
    · simp only [pushEntry, if_neg hk, List.map_cons, List.flatten_cons]
      calc es ++ ((pushEntry key e rest).map Prod.snd).flatten
          ~ es ++ ((rest.map Prod.snd).flatten ++ [e]) :=
            List.Perm.append_left es ih
        _ = (es ++ (rest.map Prod.snd).flatten) ++ [e] := by
            simp [List.append_assoc]

theorem groupedFold_flatten (dayKey : Int → Int) :
    ∀ (entries : List LogEntry) (acc : List (Int × List LogEntry)),
      ((entries.foldl (fun acc e => pushEntry (dayKey e.timestamp) e acc)
          acc).map Prod.snd).flatten ~
        (acc.map Prod.snd).flatten ++ entries := by
  intro entries
  induction entries with
  | nil => intro acc; simp
  | cons e es ih =>
    intro acc
    simp only [List.foldl_cons]
    calc ((es.foldl (fun acc e => pushEntry (dayKey e.timestamp) e acc)
            (pushEntry (dayKey e.timestamp) e acc)).map Prod.snd).flatten
        ~ ((pushEntry (dayKey e.timestamp) e acc).map Prod.snd).flatten ++ es :=
          ih _
      _ ~ ((acc.map Prod.snd).flatten ++ [e]) ++ es :=
          (pushEntry_flatten (dayKey e.timestamp) e acc).append_right es
      _ = (acc.map Prod.snd).flatten ++ (e :: es) := by
          simp [List.append_assoc]

theorem groupedFold_keys_nodup (dayKey : Int → Int) :
    ∀ (entries : List LogEntry) (acc : List (Int × List LogEntry)),
      ((acc.map Prod.fst).Nodup) →
      (((entries.foldl (fun acc e => pushEntry (dayKey e.timestamp) e acc)
          acc)).map Prod.fst).Nodup := by
  intro entries
  induction entries with
  | nil => intro acc h; simpa using h
  | cons e es ih =>
    intro acc h
    simp only [List.foldl_cons]
    exact ih _ (pushEntry_keys_nodup _ e acc h)

theorem groupedFold_content (dayKey : Int → Int) :
    ∀ (entries : List LogEntry) (acc : List (Int × List LogEntry)),
      (∀ b ∈ acc, ∀ x ∈ b.2, dayKey x.timestamp = b.1) →
      ∀ b ∈ entries.foldl (fun acc e => pushEntry (dayKey e.timestamp) e acc)
          acc, ∀ x ∈ b.2, dayKey x.timestamp = b.1 := by
  intro entries
  induction entries with
  | nil => intro acc h; simpa using h
  | cons e es ih =>
    intro acc h
    simp only [List.foldl_cons]
    exact ih _ (pushEntry_content dayKey (dayKey e.timestamp) e rfl acc h)

theorem groupedEntries_flatten (dayKey : Int → Int) (entries : List LogEntry) :
    ((groupedEntries dayKey entries).map Prod.snd).flatten ~ entries := by
  simpa using groupedFold_flatten dayKey entries []

theorem innerSort_flatten (bs : List (Int × List LogEntry)) :
    ((bs.map fun b => (b.1, b.2.insertionSort entryOrder)).map
        Prod.snd).flatten ~ (bs.map Prod.snd).flatten := by
  induction bs with
  | nil => simp
  | cons b rest ih =>
    simp only [List.map_cons, List.flatten_cons]
    exact (List.perm_insertionSort entryOrder b.2).append ih

/-- C2: the day grouping of `LogList` is a partition — every entry lands in
the bucket of its own calendar day, no two buckets share a day, and the
concatenation of the displayed buckets is a permutation of the input — and
the buckets are ordered by the timestamp of their first entry, descending
(the `sortedDates` comparator), not by their display label. -/
theorem grouping_partition (tz : Int) (entries : List LogEntry) :
    (∀ b ∈ sortedBuckets tz entries, ∀ e ∈ b.2,
      localDayIndex tz e.timestamp = b.1) ∧
    ((sortedBuckets tz entries).map Prod.fst).Nodup ∧
    ((logListBuckets tz entries).map Prod.snd).flatten ~ entries ∧
    (sortedBuckets tz entries).Pairwise bucketOrder := by
  have hperm : sortedBuckets tz entries ~
      groupedEntries (localDayIndex tz) entries :=
    List.perm_insertionSort bucketOrder _
  refine ⟨?_, ?_, ?_, ?_⟩
  · intro b hb
    exact groupedFold_content (localDayIndex tz) entries []
      (by intro b hb; cases hb) b (hperm.subset hb)
  · exact ((hperm.map Prod.fst).nodup_iff).mpr
      (groupedFold_keys_nodup (localDayIndex tz) entries [] (by simp))
  · calc ((logListBuckets tz entries).map Prod.snd).flatten
        ~ ((sortedBuckets tz entries).map Prod.snd).flatten :=
          innerSort_flatten _
      _ ~ ((groupedEntries (localDayIndex tz) entries).map Prod.snd).flatten :=
          (hperm.map Prod.snd).flatten
      _ ~ entries := groupedEntries_flatten _ _
  · exact List.sorted_insertionSort bucketOrder _

/-- Witness for C2 at two same-day entries: the single bucket returned by
the grouping carries its day index as key. -/
theorem grouping_partition_witness :
    localDayIndex 0 (1000 : Int) = 0 :=
  (grouping_partition 0
      [{ id := 1, timestamp := 1000 }, { id := 2, timestamp := 2000 }]).1
    (0, [{ id := 1, timestamp := 1000 }, { id := 2, timestamp := 2000 }])
    (by decide) { id := 1, timestamp := 1000 } (by decide)

/-- `maxValue = Math.max(...chartData.map(d => d.value), 0)`: the largest
per-day count, or 0 when there are none. -/
def maxValue (counts : List Nat) : Nat := counts.foldr max 0

/-- `yAxisTop = maxValue <= 5 ? maxValue : Math.ceil(maxValue / 5) * 5`:
for natural `m`, `Math.ceil(m / 5)` is `(m + 4) / 5` in integer division. -/
def yAxisTop (m : Nat) : Nat := if m ≤ 5 then m else ((m + 4) / 5) * 5

/-- `numTicks = yAxisTop > 0 ? Math.min(yAxisTop, 5) : 0`. -/
def numTicks (t : Nat) : Nat := if 0 < t then min t 5 else 0

/-- Rounding a rational `a / b` to the nearest natural, halves up: the
embedding of `Math.round` on the nonnegative tick values. -/
def roundDiv (a b : Nat) : Nat := (2 * a + b) / (2 * b)

/-- `yAxisLabels`: `numTicks + 1` values `Math.round((yAxisTop / numTicks) * i)`
when the axis top is positive, else the single label `[0]`. -/
def yAxisLabels (t : Nat) : List Nat :=
  if 0 < t then (List.range (numTicks t + 1)).map fun i => roundDiv (t * i) (numTicks t)
  else [0]

/-- C3: for a non-empty list of per-day counts, the axis top is the maximum
when it is at most 5, and otherwise the least multiple of 5 at or above the
maximum; the tick count is `min (axis top) 5` when the top is positive, and
a zero axis top draws the single zero label; `[1, 2, 3]` gives top 3 and
`[1, 6, 11]` gives top 15 with 5 ticks. -/
theorem axis_scaling :
    (∀ counts : List Nat, counts ≠ [] →
      (maxValue counts ≤ 5 → yAxisTop (maxValue counts) = maxValue counts) ∧
      (5 < maxValue counts →
        5 ∣ yAxisTop (maxValue counts) ∧
        maxValue counts ≤ yAxisTop (maxValue counts) ∧
        yAxisTop (maxValue counts) < maxValue counts + 5) ∧
      (0 < yAxisTop (maxValue counts) →
        numTicks (yAxisTop (maxValue counts)) =
          min (yAxisTop (maxValue counts)) 5) ∧
      (yAxisTop (maxValue counts) = 0 →
        yAxisLabels (yAxisTop (maxValue counts)) = [0])) ∧
    (maxValue [1, 2, 3] = 3 ∧ yAxisTop 3 = 3) ∧
    (maxValue [1, 6, 11] = 11 ∧ yAxisTop 11 = 15 ∧ numTicks 15 = 5) := by
  refine ⟨fun counts _ => ⟨fun h5 => ?_, fun h5 => ⟨?_, ?_, ?_⟩, fun ht => ?_,
    fun ht => ?_⟩, by decide, by decide⟩
  · simp [yAxisTop, h5]
  · exact ⟨(maxValue counts + 4) / 5, by simp [yAxisTop, Nat.not_le.mpr h5, Nat.mul_comm]⟩
  · rw [yAxisTop, if_neg (Nat.not_le.mpr h5)]
    omega
  · rw [yAxisTop, if_neg (Nat.not_le.mpr h5)]
    omega
  · simp [numTicks, ht]
  · simp [yAxisLabels, ht]

/-- Witness for C3 at the counts `[1, 6, 11]` of the worked example in the spec. -/
theorem axis_scaling_witness :
    5 ∣ yAxisTop (maxValue [1, 6, 11]) ∧
    numTicks (yAxisTop (maxValue [1, 6, 11])) =
      min (yAxisTop (maxValue [1, 6, 11])) 5 :=
  ⟨((axis_scaling.1 [1, 6, 11] (by decide)).2.1 (by decide)).1,
    (axis_scaling.1 [1, 6, 11] (by decide)).2.2.1 (by decide)⟩

/-- One step of the `countsByDay` reduce of `LogChart`: bump the count of
the bucket keyed by the midnight-normalized day of the entry, or open a new
bucket at the end with count 1. -/
def countInc (key : Int) : List (Int × Nat) → List (Int × Nat)
  | [] => [(key, 1)]
  | (k, c) :: rest =>
    if k = key then (k, c + 1) :: rest else (k, c) :: countInc key rest

/-- `countsByDay`: entries surviving the period filter, counted per
midnight-normalized day key. -/
def countsByDay (tz : Int) (entries : List LogEntry) : List (Int × Nat) :=
  entries.foldl (fun acc e => countInc (isoDayKey tz e.timestamp) acc) []

/-- The `chartData` comparator `(a, b) => a.date.getTime() - b.date.getTime()`:
ascending by the midnight instant of the bin, equivalently by its day index
(`midnight = q·oneDay − tz` is strictly monotone in the day index). -/
def binOrder (a b : Int × Nat) : Prop := a.1 ≤ b.1

instance : DecidableRel binOrder := fun a b =>
  inferInstanceAs (Decidable (a.1 ≤ b.1))

/-- The chart bins of `LogChart` as (day key, count), sorted ascending by
day (the `label` field is pure locale formatting of the key and carries no
further data). -/
def chartData (period : ChartPeriod) (now tz : Int) (entries : List LogEntry) :
    List (Int × Nat) :=
  (countsByDay tz (periodFilter period now entries)).insertionSort binOrder

/-- The count recorded for `key`, reading the first matching bucket. -/
def getCount (key : Int) : List (Int × Nat) → Nat
  | [] => 0
  | (k, c) :: rest => if k = key then c else getCount key rest

theorem countInc_getCount (key key2 : Int) (bs : List (Int × Nat)) :
    getCount key (countInc key2 bs) =
      getCount key bs + (if key2 = key then 1 else 0) := by
  induction bs with
  | nil =>
    by_cases h : key2 = key <;> simp [countInc, getCount, h]
  | cons b rest ih =>
    obtain ⟨k, c⟩ := b
    by_cases h2 : k = key2
    · subst h2
      by_cases h : k = key
      · subst h; simp [countInc, getCount]
      · simp [countInc, getCount, h]
    · by_cases h : k = key
      · subst h
        have : key2 ≠ k := fun hc => h2 hc.symm
        simp [countInc, getCount, h2, this]
      · simp [countInc, getCount, h2, h, ih]

theorem countsFold_getCount (tz key : Int) :
    ∀ (es : List LogEntry) (acc : List (Int × Nat)),
      getCount key
          (es.foldl (fun acc e => countInc (isoDayKey tz e.timestamp) acc) acc) =
        getCount key acc +
          (es.filter fun e => decide (isoDayKey tz e.timestamp = key)).length := by
  intro es
  induction es with
  | nil => intro acc; simp
  | cons e es ih =>
    intro acc
    simp only [List.foldl_cons]
    rw [ih, countInc_getCount]
    by_cases h : isoDayKey tz e.timestamp = key <;> simp [h]
    all_goals omega

theorem countInc_keys (key : Int) (bs : List (Int × Nat)) :
    (countInc key bs).map Prod.fst =
      if key ∈ bs.map Prod.fst then bs.map Prod.fst
      else bs.map Prod.fst ++ [key] := by
  induction bs with
  | nil => simp [countInc]
  | cons b rest ih =>
    obtain ⟨k, c⟩ := b
    by_cases hk : k = key
    · subst hk
      simp [countInc]
    · by_cases hmem : key ∈ rest.map Prod.fst <;>
        simp [countInc, hk, hmem, ih, Ne.symm hk]

theorem countInc_keys_nodup (key : Int) (bs : List (Int × Nat))
    (h : (bs.map Prod.fst).Nodup) : ((countInc key bs).map Prod.fst).Nodup := by
  rw [countInc_keys]
  by_cases hmem : key ∈ bs.map Prod.fst
  · simpa [hmem] using h
  · simp only [hmem, if_false]
    refine List.Nodup.append h (List.nodup_singleton key) ?_
    intro a ha hb
    rw [List.mem_singleton] at hb
    subst hb
    exact hmem ha

theorem countsFold_keys_nodup (tz : Int) :
    ∀ (es : List LogEntry) (acc : List (Int × Nat)),
      (acc.map Prod.fst).Nodup →
      (((es.foldl (fun acc e => countInc (isoDayKey tz e.timestamp) acc)
          acc)).map Prod.fst).Nodup := by
  intro es
  induction es with
  | nil => intro acc h; simpa using h
  | cons e es ih =>
    intro acc h
    simp only [List.foldl_cons]
    exact ih _ (countInc_keys_nodup _ acc h)

theorem getCount_of_mem (key : Int) (c : Nat) :
    ∀ bs : List (Int × Nat), (bs.map Prod.fst).Nodup → (key, c) ∈ bs →
      getCount key bs = c := by
  intro bs
  induction bs with
  | nil => intro _ h; cases h
  | cons b rest ih =>
    obtain ⟨k, c0⟩ := b
    intro hnd hmem
    rcases List.mem_cons.mp hmem with h1 | h2
    · injection h1 with hk hc
      subst hk; subst hc
      simp [getCount]
    · by_cases hk : k = key
      · subst hk
        exfalso
        have : k ∈ rest.map Prod.fst :=
          List.mem_map.mpr ⟨(k, c), h2, rfl⟩
        simp only [List.map_cons, List.nodup_cons] at hnd
        exact hnd.1 this
      · simp only [getCount, if_neg hk]
        refine ih ?_ h2
        simp only [List.map_cons, List.nodup_cons] at hnd
        exact hnd.2

/-- C9: under period `all`, the displayed count of every chart bin equals
the number of entries returned by the drill-down for its day key — binning
and drill-down normalize timestamps to the same local-midnight day key. -/
theorem bin_count_matches_drilldown (now tz : Int) (entries : List LogEntry)
    (k : Int) (c : Nat) (hmem : (k, c) ∈ chartData .all now tz entries) :
    c = (handleBarClick tz entries k).length := by
  have hall : periodFilter .all now entries = entries := by
    simp [periodFilter]
  have hmem2 : (k, c) ∈ countsByDay tz entries := by
    have := (List.perm_insertionSort binOrder
      (countsByDay tz (periodFilter .all now entries))).subset hmem
    rwa [hall] at this
  have hnd : ((countsByDay tz entries).map Prod.fst).Nodup :=
    countsFold_keys_nodup tz entries [] (by simp)
  have hget : getCount k (countsByDay tz entries) = c :=
    getCount_of_mem k c _ hnd hmem2
  have hcount : getCount k (countsByDay tz entries) =
      (entries.filter fun e => decide (isoDayKey tz e.timestamp = k)).length := by
    simpa [getCount] using countsFold_getCount tz k entries []
  rw [← hget, hcount]
  rfl

/-- Witness for C9: two same-day entries produce the single bin (0, 2), and
the drill-down for day 0 returns both entries. -/
theorem bin_count_matches_drilldown_witness :
    (2 : Nat) =
      (handleBarClick 0
        [{ id := 1, timestamp := 1000 }, { id := 2, timestamp := 2000 }]
        0).length :=
  bin_count_matches_drilldown 0 0
    [{ id := 1, timestamp := 1000 }, { id := 2, timestamp := 2000 }] 0 2
    (by decide)

end PeeMeter
